import Mathlib

/-!
Verification development for the q2doc usage extension
(`src/q2doc/usage/usage.py`): a shallow embedding of the multi-strategy
record-to-node dispatch, and theorems about it.

The embedding translates `usage.py` directly.  The sibling modules
`q2doc.usage.nodes`, `q2doc.usage.meta_usage` and `q2doc.usage.validation`
are not part of the sources; the few facts needed about them (the node
classes are plain data carriers, the strategy enumeration and its order,
the validator produces no nodes) are modelled from the specification and
marked as such in their doc comments.
-/

namespace Q2Doc

/-- Modelled from the spec: the materialized result of a usage record is an
external SDK value object — either an artifact (with a semantic type,
rendered by `f"{artifact.type}"`) or a metadata value (whose
`to_dataframe()` rendering we carry as a string). -/
inductive Result where
  | artifact (ty : String)
  | metadata (df : String)
deriving Repr, DecidableEq, Inhabited

/-- A `ScopeRecord` produced by a usage strategy: a reference name, a source
tag (`"action"`, `"init_data"`, `"init_metadata"`, …) and a result value. -/
structure Record where
  ref : String
  source : String
  result : Result
deriving Repr, DecidableEq, Inhabited

/-- Modelled from the spec: the documentation node classes of
`q2doc.usage.nodes` (not under the sources) are plain data carriers:
the generic placeholder `UsageNode` (name, factory flag, source path),
`UsageExampleNode` (parallel title/example lists), `UsageDataNode`,
`UsageMetadataNode`, and `FactoryNode` (URLs, save-as name, ref, and an
optional preview attached later). -/
inductive Node where
  | usageNode (name : String) (factory : Bool) (src : String)
  | exampleNode (titles : List String) (examples : List String)
  | dataNode (stype : String) (loadStatement : String) (name : String)
  | metadataNode (loadStatement : String) (preview : String) (name : String)
  | factoryNode (relative_url : String) (absolute_url : String)
      (saveas : String) (ref : String) (preview : Option String)
deriving Repr, DecidableEq, Inhabited

/-- Modelled from the spec: `.name` attribute access on a node (present on
the placeholder and on data/metadata nodes). -/
def Node.name : Node → String
  | .usageNode n _ _ => n
  | .dataNode _ _ n => n
  | .metadataNode _ _ n => n
  | _ => ""

/-- Modelled from the spec: `.source` attribute access on a node (the
source-file path, carried by the placeholder node). -/
def Node.src : Node → String
  | .usageNode _ _ s => s
  | _ => ""

/-- Modelled from the spec: `.factory` attribute access — the factory flag
carried by the placeholder node. -/
def Node.factory : Node → Bool
  | .usageNode _ f _ => f
  | _ => false

/-- Is this node the generic `UsageNode` placeholder (what
`doctree.traverse(UsageNode)` pairs with blocks)? -/
def Node.isUsage : Node → Bool
  | .usageNode _ _ _ => true
  | _ => false

/-- Is this node a `FactoryNode`? -/
def Node.isFactory : Node → Bool
  | .factoryNode _ _ _ _ _ => true
  | _ => false

/-- A usage code block: the records its source registers on the active
strategy's scope when `exec`-uted (keyed by reference name, in creation
order), and the accumulating list of generated documentation nodes. -/
structure Block where
  recs : List (String × Record)
  nodes : List Node
deriving Repr, DecidableEq, Inhabited

/-- Python truthiness of a string: non-empty strings are truthy. -/
def pyTruthy (s : String) : Bool := !(s == "")

/-- Lookup in the strategy's record dict (`records[k]`); total, with a
default for the (unreached) missing-key case. -/
def dictGet (store : List (String × Record)) (k : String) : Record :=
  ((store.find? (fun p => p.1 == k)).map Prod.snd).getD default

/-- `dict.__setitem__`: overwrite in place if the key exists, else append
(Python dicts keep insertion order). -/
def dictInsert (store : List (String × Record)) (kv : String × Record) :
    List (String × Record) :=
  if store.any (fun p => p.1 == kv.1) then
    store.map (fun p => if p.1 == kv.1 then (p.1, kv.2) else p)
  else store ++ [kv]

/-- Executing a block's compiled source under a strategy registers the
block's records on that strategy's scope (`exec(source)` followed by the
scope's own bookkeeping). -/
def execBlock (store : List (String × Record)) (b : Block) :
    List (String × Record) :=
  b.recs.foldl dictInsert store

/-- The value `get_new_records` actually returns: `operator.itemgetter`
applied to a single key yields the bare record object, applied to two or
more keys a tuple, and the `new_records = tuple()` initialisation yields
the empty tuple. -/
inductive PyRecords where
  | single (r : Record)
  | tuple (rs : List Record)
deriving Repr, DecidableEq

/-- `operator.itemgetter(*keys)(records)`: one key gives the bare value,
several give the tuple of values.  (Zero keys would raise in Python; the
caller guards that case, so the `[]` branch here is unreachable.) -/
def itemgetter (keys : List String) (store : List (String × Record)) :
    PyRecords :=
  match keys with
  | [k] => .single (dictGet store k)
  | ks => .tuple (ks.map (dictGet store))

/-- `get_new_records(use, processed_records)`: keys of the strategy's record
dict not yet in `processed_records`, fetched with `itemgetter`; the empty
tuple when there are no new keys. -/
def get_new_records (store : List (String × Record))
    (processed : List String) : PyRecords :=
  let new_record_keys :=
    (store.map Prod.fst).filter (fun k => !(processed.contains k))
  if new_record_keys.isEmpty then .tuple []
  else itemgetter new_record_keys store

/-- Iterating the returned value (`for record in records`): a tuple yields
its elements; the bare single record is the anomalous case recorded by the
return-shape theorems. -/
def PyRecords.toList : PyRecords → List Record
  | .single r => [r]
  | .tuple rs => rs

/-- `update_processed_records`: extend the processed list with the refs of
the new records. -/
def update_processed_records (new_records : List Record)
    (processed : List String) : List String :=
  processed ++ new_records.map Record.ref

/-- `str.rstrip('/')`: drop every trailing slash. -/
def rstripSlash (s : String) : String :=
  String.mk ((s.data.reverse.dropWhile (fun c => c == '/')).reverse)

/-- `str.split`-style splitting of a character list at a separator
character (models `pathlib` path parts and suffix handling with
kernel-reducible structural recursion). -/
def splitOnChar (c : Char) : List Char → List (List Char)
  | [] => [[]]
  | x :: xs =>
    if x == c then [] :: splitOnChar c xs
    else
      match splitOnChar c xs with
      | [] => [[x]]
      | y :: ys => (x :: y) :: ys

/-- Rejoin dot-separated pieces. -/
def joinDot : List (List Char) → List Char
  | [] => []
  | [p] => p
  | p :: ps => p ++ '.' :: joinDot ps

/-- `pathlib.PurePath.stem`: the name without its final suffix. -/
def stem (s : String) : String :=
  match splitOnChar '.' s.data with
  | [] => s
  | [p] => String.mk p
  | ps => String.mk (joinDot ps.dropLast)

/-- `get_docname(node)`: the last two path parts of `node.source`, the
second with its extension stripped. -/
def get_docname (src : String) : String × String :=
  match ((splitOnChar '/' src.data).map String.mk).reverse with
  | d :: r :: _ => (r, stem d)
  | [d] => ("", stem d)
  | [] => ("", "")

/-- `factories_to_nodes(block, env)`: pop the block's last node, derive the
doc name from its source path, strip trailing slashes from the configured
base URL, and append a `FactoryNode` with a relative URL
`results/<name>.qza`, an absolute URL `<base>/<doc_name>/<relative_url>`,
save-as name `<name>.qza` and ref the popped node's name.  (`list.pop()`
on an empty list would raise; the caller has just read `nodes[0]`, so the
list is non-empty and the `none` branch is unreachable.) -/
def factories_to_nodes (base_url : String) (nodes : List Node) : List Node :=
  match nodes.getLast? with
  | none => nodes
  | some node =>
    let rest := nodes.dropLast
    let doc_name := (get_docname node.src).2
    let base := rstripSlash base_url
    let name := node.name ++ ".qza"
    let relative_url := "results/" ++ name
    let absolute_url := base ++ "/" ++ doc_name ++ "/" ++ relative_url
    rest ++ [Node.factoryNode relative_url absolute_url name node.name none]

/-- The observable outcome of the execution-strategy handler: the block's
node list afterwards and the artifact paths passed to `artifact.save`. -/
structure ExecOut where
  nodes : List Node
  saved : List String
deriving Repr, DecidableEq

/-- `records_to_nodes` for `ExecutionUsage`: read `block["nodes"][0]`
(raising — `none` — on an empty list), derive the output directory
`<outdir>/<doc_name>/results`, convert a factory-flagged first node via
`factories_to_nodes`, then for every record save its result to
`<out_dir>/<ref>.qza` when `record.source == "init_metadata" or
"init_data"` holds (an `or` whose second operand is a truthy literal). -/
def execution (outdir base_url : String) (records : List Record)
    (nodes : List Node) : Option ExecOut :=
  match nodes with
  | [] => none
  | node0 :: rest =>
    let doc_name := (get_docname node0.src).2
    let out_dir := outdir ++ "/" ++ doc_name ++ "/results"
    let nodes' :=
      if node0.factory then factories_to_nodes base_url (node0 :: rest)
      else node0 :: rest
    let saved := records.filterMap (fun record =>
      let path := out_dir ++ "/" ++ record.ref ++ ".qza"
      if (record.source == "init_metadata") || pyTruthy "init_data" then
        some path
      else none)
    some ⟨nodes', saved⟩

/-- `records_to_nodes` for `DiagnosticUsage`.  Modelled from the spec: the
`BlockValidator` (not under the sources) visits the block's syntax tree
and produces no documentation nodes, so the node list is returned
unchanged. -/
def diagnostic (_records : List Record) (nodes : List Node) : List Node :=
  nodes

/-- `records_to_nodes` for `CLIUsage`: on the first record whose source is
`"action"`, join the strategy's rendering once, replace the block's node
list with a single example node titled `"Command Line"`, and break.  The
returned `Nat` counts the calls to `use.render()`. -/
def cli (rendered : String) : List Record → List Node → List Node × Nat
  | [], nodes => (nodes, 0)
  | record :: rs, nodes =>
    if record.source == "action" then
      ([Node.exampleNode ["Command Line"] [rendered]], 1)
    else cli rendered rs nodes

/-- `init_data_node(record)`: a data node for the record's ref, with the
artifact's type (looked up in the execution strategy's scope, modelled by
the lookup function `f`) and an `Artifact.load` statement. -/
def init_data_node (f : String → Result) (record : Record) : Node :=
  let name := record.ref
  let fname := name ++ ".qza"
  let stype := match f name with
    | .artifact ty => ty
    | .metadata _ => ""
  let load_statement := name ++ " = qiime2.Artifact.load('" ++ fname ++ "')"
  Node.dataNode stype load_statement name

/-- `init_metadata_node(record)`: a metadata node for the record's ref,
with a `Metadata.load` statement and the tabular preview of the result
looked up in the execution strategy's scope (modelled by `f`). -/
def init_metadata_node (f : String → Result) (record : Record) : Node :=
  let name := record.ref
  let fname := name ++ ".qza"
  let load_statement := name ++ " = qiime2.Metadata.load('" ++ fname ++ "')"
  let preview := match f name with
    | .metadata df => df
    | .artifact _ => ""
  Node.metadataNode load_statement preview name

/-- The `"action"` branch of the artifact-API handler: append the
`"Artifact API"` title/example pair in place to `block["nodes"][0]`.
Reading `block["nodes"][0]` when the list is empty, or appending to a
node without title/example lists, raises — `none`. -/
def appendApiExample (rendered : String) (nodes : List Node) :
    Option (List Node × Nat) :=
  match nodes with
  | Node.exampleNode ts es :: rest =>
    some (Node.exampleNode (ts ++ ["Artifact API"]) (es ++ [rendered])
            :: rest, 1)
  | _ => none

/-- `records_to_nodes` for `ArtifactAPIUsage`: append a data node for each
`"init_data"` record and a metadata node for each `"init_metadata"`
record; on the first `"action"` record, render once and append an
`"Artifact API"` title/example pair to the block's first node in place,
then break.  The `Nat` counts the calls to `use.render()`. -/
def artifact_api (f : String → Result) (rendered : String) :
    List Record → List Node → Option (List Node × Nat)
  | [], nodes => some (nodes, 0)
  | record :: rs, nodes =>
    if record.source == "init_data" then
      artifact_api f rendered rs (nodes ++ [init_data_node f record])
    else if record.source == "init_metadata" then
      artifact_api f rendered rs (nodes ++ [init_metadata_node f record])
    else if record.source == "action" then
      appendApiExample rendered nodes
    else artifact_api f rendered rs nodes

/-- The record-tracking state of one strategy pass in
`process_usage_blocks`: the strategy scope's record dict and the
`processed_records` list (both start empty when a strategy's pass
begins). -/
structure RecState where
  store : List (String × Record)
  processed : List String
deriving Repr, DecidableEq

/-- The records the dispatcher receives for a block: the block is executed
(its records registered on the scope), then `get_new_records` filters the
scope against `processed_records`. -/
def dispatchedRecords (st : RecState) (b : Block) : List Record :=
  (get_new_records (execBlock st.store b) st.processed).toList

/-- One iteration of the inner loop of `process_usage_blocks`, restricted
to its record bookkeeping: execute the block, compute the new records,
and extend `processed_records` with their refs. -/
def recStep (st : RecState) (b : Block) : RecState :=
  let store := execBlock st.store b
  let new_records := (get_new_records store st.processed).toList
  ⟨store, update_processed_records new_records st.processed⟩

/-- The record-tracking state after a strategy pass has handled the given
blocks, starting — as each pass does — from the empty scope and the empty
`processed_records` list. -/
def passState (blocks : List Block) : RecState :=
  blocks.foldl recStep ⟨[], []⟩

/-- Modelled from the spec: `MetaUsage` (not under the sources) enumerates
the four usage strategies. -/
inductive Strategy where
  | diagnosticU
  | commandLine
  | artifactAPI
  | executionU
deriving Repr, DecidableEq

/-- Modelled from the spec: the fixed iteration order of `MetaUsage` —
diagnostic, command-line, artifact-API, execution. -/
def strategyOrder : List Strategy :=
  [.diagnosticU, .commandLine, .artifactAPI, .executionU]

/-- The build environment: configured base URL and output directory, the
per-strategy rendering of the accumulated usage (opaque external state),
and the execution scope's `_get_record(·).result` lookup. -/
structure Env where
  base_url : String
  outdir : String
  render : Strategy → String
  execResult : String → Result

/-- One observable event of `process_usage_blocks`: block `i`'s source is
parsed and executed under a strategy, or `update_nodes` runs. -/
inductive Event where
  | exec (s : Strategy) (i : Nat)
  | updateNodes
deriving Repr, DecidableEq

/-- `records_to_nodes(use, records, block, env)`: the single-dispatch
entry point, selecting the handler by strategy.  Returns the block's new
node list and any artifact paths saved; `none` models an uncaught
exception in the handler. -/
def records_to_nodes (env : Env) (s : Strategy) (records : List Record)
    (nodes : List Node) : Option (List Node × List String) :=
  match s with
  | .diagnosticU => some (diagnostic records nodes, [])
  | .commandLine => some ((cli (env.render s) records nodes).1, [])
  | .artifactAPI =>
    (artifact_api env.execResult (env.render s) records nodes).map
      (fun p => (p.1, []))
  | .executionU =>
    (execution env.outdir env.base_url records nodes).map
      (fun o => (o.nodes, o.saved))

/-- The inner loop of `process_usage_blocks` for one strategy, over the
remaining blocks (block counter `i`, record state `st`): parse+execute the
block (emitting an event), dispatch the new records, update
`processed_records`.  An exception in the dispatcher aborts the loop:
the trace keeps the events so far and the result is `none`. -/
def runPassAux (env : Env) (s : Strategy) (st : RecState) (i : Nat) :
    List Block → List Event × Option (List Block × List String)
  | [] => ([], some ([], []))
  | b :: bs =>
    let store := execBlock st.store b
    let new_records := (get_new_records store st.processed).toList
    match records_to_nodes env s new_records b.nodes with
    | none => ([Event.exec s i], none)
    | some out =>
      let st' : RecState :=
        ⟨store, update_processed_records new_records st.processed⟩
      let rec_rest := runPassAux env s st' (i + 1) bs
      (Event.exec s i :: rec_rest.1,
       rec_rest.2.map (fun p => ({ b with nodes := out.1 } :: p.1,
                                 out.2 ++ p.2)))

/-- The outer loop of `process_usage_blocks`: one pass per strategy, each
starting from a fresh record state; a failed pass aborts the run. -/
def runStrategies (env : Env) : List Strategy → List Block →
    List Event × Option (List Block × List String)
  | [], blocks => ([], some (blocks, []))
  | s :: ss, blocks =>
    let pass := runPassAux env s ⟨[], []⟩ 0 blocks
    match pass.2 with
    | none => (pass.1, none)
    | some out =>
      let rest := runStrategies env ss out.1
      (pass.1 ++ rest.1,
       rest.2.map (fun p => (p.1, out.2 ++ p.2)))

/-- The first loop of `update_nodes`: `zip(env.usage_blocks,
doctree.traverse(UsageNode))` pairs blocks with placeholder usage nodes
in traversal order; each placeholder is `replace_self`-ed by its block's
accumulated node list.  The zip stops at the shorter sequence. -/
def replaceUsage : List Block → List Node → List Node
  | _, [] => []
  | [], n :: ns => n :: ns
  | b :: bs, n :: ns =>
    if n.isUsage then b.nodes ++ replaceUsage bs ns
    else n :: replaceUsage (b :: bs) ns

/-- The second loop of `update_nodes`: `zip(env.usage_blocks,
doctree.traverse(FactoryNode))` pairs the first `len(blocks)` factory
nodes (in traversal order, after replacement) with blocks; each looks up
the execution record for its ref (modelled by `f`) and, when the result
is a metadata value, attaches the dataframe rendering as its preview. -/
def setPreviews (f : String → Result) : Nat → List Node → List Node
  | _, [] => []
  | 0, n :: ns => n :: ns
  | k + 1, n :: ns =>
    match n with
    | .factoryNode ru au sa ref pv =>
      (match f ref with
       | .metadata df => Node.factoryNode ru au sa ref (some df)
       | .artifact _ => Node.factoryNode ru au sa ref pv)
        :: setPreviews f k ns
    | _ => n :: setPreviews f (k + 1) ns

/-- `update_nodes(doctree, env)`: replace each placeholder with its
block's nodes, then attach metadata previews to the factory nodes paired
with blocks. -/
def update_nodes (f : String → Result) (blocks : List Block)
    (doctree : List Node) : List Node :=
  setPreviews f blocks.length (replaceUsage blocks doctree)

/-- `process_usage_blocks(app, doctree, _)`: run the four strategy passes
in order over the blocks, then run `update_nodes` once.  The result is
the event trace together with (on success) the final blocks, the updated
document tree, and the saved artifact paths. -/
def process_usage_blocks (env : Env) (blocks : List Block)
    (doctree : List Node) :
    List Event × Option (List Block × List Node × List String) :=
  let run := runStrategies env strategyOrder blocks
  match run.2 with
  | none => (run.1, none)
  | some out =>
    (run.1 ++ [Event.updateNodes],
     some (out.1, update_nodes env.execResult out.1 doctree, out.2))

/-- The node (if any) the artifact-API handler appends for one non-action
record: a data node for `"init_data"`, a metadata node for
`"init_metadata"`, nothing otherwise. -/
def apiNode (f : String → Result) (record : Record) : Option Node :=
  if record.source == "init_data" then some (init_data_node f record)
  else if record.source == "init_metadata" then
    some (init_metadata_node f record)
  else none

/-- A record dict is coherent when every entry is keyed by its record's
reference name (the usage scope's own invariant: records are stored under
their refs). -/
def cohStore (store : List (String × Record)) : Prop :=
  ∀ p ∈ store, p.2.ref = p.1

/-- A block is coherent when the records its code registers are keyed by
their reference names. -/
def cohBlock (b : Block) : Prop :=
  ∀ p ∈ b.recs, p.2.ref = p.1

instance (store : List (String × Record)) : Decidable (cohStore store) := by
  unfold cohStore
  infer_instance

instance (b : Block) : Decidable (cohBlock b) := by
  unfold cohBlock
  infer_instance

/-- A concrete build environment for concrete runs. -/
def envW : Env :=
  ⟨"http://b", "out", fun _ => "R", fun _ => Result.metadata "DF"⟩

/-- A concrete ordinary block (no records, one placeholder node). -/
def blkW : Block := ⟨[], [Node.usageNode "n" false "a/b.rst"]⟩

/-! ## Theorems -/

/-- C1: the artifact-save guard `record.source == "init_metadata" or
"init_data"` is an `or` with a truthy string literal, so it holds for
every record, and the execution handler saves every dispatched record's
result to `<out_dir>/<ref>.qza` regardless of the record's source. -/
theorem execution_saves_every_record :
    (∀ record : Record,
        ((record.source == "init_metadata") || pyTruthy "init_data") = true) ∧
    (∀ outdir base_url records node0 rest,
        (execution outdir base_url records (node0 :: rest)).map ExecOut.saved =
          some (records.map (fun record =>
            outdir ++ "/" ++ (get_docname node0.src).2 ++ "/results" ++ "/" ++
              record.ref ++ ".qza"))) := by
  constructor
  · intro record
    simp [pyTruthy]
  · intro outdir base_url records node0 rest
    simp [execution, pyTruthy]
    induction records with
    | nil => rfl
    | cons r rs ih => simp [List.filterMap_cons, List.map_cons, ih]

/-- C10: the execution handler reads `block["nodes"][0]` before iterating
the records, so an empty node list makes it fail (an index error, modelled
by `none`) even with an empty record collection, while any non-empty node
list satisfies its implicit precondition. -/
theorem execution_empty_nodes_fails :
    (∀ outdir base_url records,
        execution outdir base_url records [] = none) ∧
    (∀ outdir base_url records node0 rest,
        (execution outdir base_url records (node0 :: rest)).isSome = true) := by
  exact ⟨fun _ _ _ => rfl, fun _ _ _ _ _ => rfl⟩

/-- C9: `get_new_records` returns the empty tuple for zero new keys, the
bare record object (not a one-element tuple) for exactly one new key —
`operator.itemgetter` applied to a single key — and a tuple for two or
more, so consumers that iterate the result get a record object instead of
a collection exactly in the single-record case. -/
theorem get_new_records_return_shape :
    (∀ store processed,
        (store.map Prod.fst).filter
            (fun key => !(processed.contains key)) = ([] : List String) →
        get_new_records store processed = PyRecords.tuple []) ∧
    (∀ store processed k,
        (store.map Prod.fst).filter
            (fun key => !(processed.contains key)) = [k] →
        get_new_records store processed =
          PyRecords.single (dictGet store k)) ∧
    (∀ store processed k1 k2 ks,
        (store.map Prod.fst).filter
            (fun key => !(processed.contains key)) = k1 :: k2 :: ks →
        get_new_records store processed =
          PyRecords.tuple ((k1 :: k2 :: ks).map (dictGet store))) := by
  refine ⟨?_, ?_, ?_⟩
  · intro store processed h
    simp only [get_new_records]
    rw [h]
    rfl
  · intro store processed k h
    simp only [get_new_records]
    rw [h]
    rfl
  · intro store processed k1 k2 ks h
    simp only [get_new_records]
    rw [h]
    rfl

/-- C9 witness: with one record in the scope and nothing processed, the
single new key yields the bare record. -/
theorem get_new_records_return_shape_witness :
    (([("a", (⟨"a", "init_data", Result.artifact "T"⟩ : Record))].map
        Prod.fst).filter
          (fun key => !(([] : List String).contains key)) = ["a"]) ∧
    get_new_records [("a", ⟨"a", "init_data", Result.artifact "T"⟩)] [] =
      PyRecords.single
        (dictGet [("a", ⟨"a", "init_data", Result.artifact "T"⟩)] "a") :=
  ⟨by decide, get_new_records_return_shape.2.1 _ _ "a" (by decide)⟩

/-- C3: under the command-line strategy, the handler renders exactly once
on the first `"action"` record, replaces the block's node list with one
example node titled `"Command Line"` holding the single rendered example,
and ignores all later records; with no `"action"` record it produces
nothing and never renders. -/
theorem cli_renders_once :
    (∀ rendered records nodes,
        (∀ r ∈ records, r.source ≠ "action") →
        cli rendered records nodes = (nodes, 0)) ∧
    (∀ rendered pre a post nodes,
        (∀ r ∈ pre, r.source ≠ "action") → a.source = "action" →
        cli rendered (pre ++ a :: post) nodes =
          ([Node.exampleNode ["Command Line"] [rendered]], 1)) := by
  constructor
  · intro rendered records nodes h
    induction records with
    | nil => rfl
    | cons r rs ih =>
      have hr : (r.source == "action") = false :=
        beq_eq_false_iff_ne.mpr (h r (List.mem_cons_self r rs))
      rw [cli, hr]
      exact ih (fun x hx => h x (List.mem_cons_of_mem _ hx))
  · intro rendered pre a post nodes hpre ha
    induction pre with
    | nil =>
      rw [List.nil_append, cli]
      simp [ha]
    | cons r rs ih =>
      have hr : (r.source == "action") = false :=
        beq_eq_false_iff_ne.mpr (hpre r (List.mem_cons_self r rs))
      rw [List.cons_append, cli, hr]
      exact ih (fun x hx => hpre x (List.mem_cons_of_mem _ hx))

/-- C3 witness: a non-action record followed by two action records yields
exactly one `"Command Line"` example node with one render. -/
theorem cli_renders_once_witness :
    ((∀ r ∈ [(⟨"c", "comment", Result.artifact "T"⟩ : Record)],
        r.source ≠ "action") ∧
      (⟨"z", "action", Result.artifact "T"⟩ : Record).source = "action") ∧
    cli "R" ([⟨"c", "comment", Result.artifact "T"⟩] ++
        (⟨"z", "action", Result.artifact "T"⟩ : Record) ::
          [⟨"w", "action", Result.artifact "T"⟩])
        [Node.usageNode "n" false "a/b.rst"] =
      ([Node.exampleNode ["Command Line"] ["R"]], 1) :=
  ⟨⟨by decide, rfl⟩,
    cli_renders_once.2 "R" _ _ _ _ (by decide) rfl⟩

/-- C8 (counterexample): with an empty record collection, the execution
handler still appends a factory node when the block's first node is
factory-tagged, so the node list does change. -/
theorem empty_records_factory_counterexample :
    (execution "out" "b" [] [Node.usageNode "x" true "a/d.rst"]).map
        ExecOut.nodes =
      some [Node.factoryNode "results/x.qza" "b/d/results/x.qza" "x.qza" "x"
              none] ∧
    ¬ ((execution "out" "b" [] [Node.usageNode "x" true "a/d.rst"]).map
          ExecOut.nodes =
        some [Node.usageNode "x" true "a/d.rst"]) := by
  exact ⟨rfl, by decide⟩

/-- C8 (amended): with an empty record collection, the diagnostic,
command-line and artifact-API handlers leave the node list unchanged, the
execution handler is a no-op on a non-empty node list whose first node is
not factory-tagged, and the processed-record set is unchanged. -/
theorem empty_records_no_new_nodes :
    (∀ nodes, diagnostic [] nodes = nodes) ∧
    (∀ rendered nodes, cli rendered [] nodes = (nodes, 0)) ∧
    (∀ f rendered nodes, artifact_api f rendered [] nodes = some (nodes, 0)) ∧
    (∀ outdir base_url node0 rest, node0.factory = false →
        execution outdir base_url [] (node0 :: rest) =
          some ⟨node0 :: rest, []⟩) ∧
    (∀ processed, update_processed_records [] processed = processed) := by
  refine ⟨fun _ => rfl, fun _ _ => rfl, fun _ _ _ => rfl, ?_, ?_⟩
  · intro outdir base_url node0 rest h
    simp [execution, h]
  · intro processed
    simp [update_processed_records]

/-- C8 witness: a non-factory block with no records is untouched by the
execution handler. -/
theorem empty_records_no_new_nodes_witness :
    (Node.usageNode "x" false "a/d.rst").factory = false ∧
    execution "out" "b" [] [Node.usageNode "x" false "a/d.rst"] =
      some ⟨[Node.usageNode "x" false "a/d.rst"], []⟩ :=
  ⟨rfl, empty_records_no_new_nodes.2.2.2.1 "out" "b" _ [] rfl⟩

/-- C5 (counterexample): `factories_to_nodes` pops the block's *last*
node, so with a second node after the factory-tagged placeholder the
placeholder stays in place and the appended factory node takes its ref
from the last node, not from the placeholder. -/
theorem factory_pop_counterexample :
    (execution "out" "http://b" []
        [Node.usageNode "ph" true "a/doc.rst",
         Node.usageNode "other" false "c/e.rst"]).map ExecOut.nodes =
      some [Node.usageNode "ph" true "a/doc.rst",
            Node.factoryNode "results/other.qza" "http://b/e/results/other.qza"
              "other.qza" "other" none] ∧
    ("other" : String) ≠ "ph" := by
  exact ⟨rfl, by decide⟩

/-- C5 (amended): for a block whose node list is exactly the
factory-tagged placeholder, the execution handler replaces it by a factory
node with `relative_url = results/<name>.qza`,
`absolute_url = <base_url>/<doc_name>/results/<name>.qza` (trailing
slashes stripped from the base URL), save-as name `<name>.qza`, and ref
the placeholder's name. -/
theorem factory_placeholder_replaced :
    ∀ outdir base_url records name src,
      (execution outdir base_url records
          [Node.usageNode name true src]).map ExecOut.nodes =
        some [Node.factoryNode ("results/" ++ (name ++ ".qza"))
                (rstripSlash base_url ++ "/" ++ (get_docname src).2 ++ "/" ++
                  ("results/" ++ (name ++ ".qza")))
                (name ++ ".qza") name none] := by
  intro outdir base_url records name src
  rfl

/-- C4: under the artifact-API strategy, every `"init_data"` record
appends a data node and every `"init_metadata"` record a metadata node;
the first `"action"` record renders once and appends the `"Artifact API"`
title/example pair to the block's existing first (example) node instead of
creating a new node, and processing stops there. -/
theorem artifact_api_appends_and_renders_once :
    (∀ f rendered records nodes,
        (∀ r ∈ records, r.source ≠ "action") →
        artifact_api f rendered records nodes =
          some (nodes ++ records.filterMap (apiNode f), 0)) ∧
    (∀ f rendered pre a post ts es rest,
        (∀ r ∈ pre, r.source ≠ "action") → a.source = "action" →
        artifact_api f rendered (pre ++ a :: post)
            (Node.exampleNode ts es :: rest) =
          some (Node.exampleNode (ts ++ ["Artifact API"]) (es ++ [rendered])
                  :: (rest ++ pre.filterMap (apiNode f)), 1)) := by
  constructor
  · intro f rendered records nodes h
    induction records generalizing nodes with
    | nil => simp [artifact_api]
    | cons r rs ih =>
      have hact : (r.source == "action") = false :=
        beq_eq_false_iff_ne.mpr (h r (List.mem_cons_self r rs))
      have hrest : ∀ x ∈ rs, x.source ≠ "action" :=
        fun x hx => h x (List.mem_cons_of_mem _ hx)
      by_cases hd : r.source = "init_data"
      · rw [artifact_api, if_pos (by simp [hd]), ih _ hrest]
        simp [apiNode, hd, List.filterMap_cons]
      · by_cases hm : r.source = "init_metadata"
        · rw [artifact_api, if_neg (by simp [hd]), if_pos (by simp [hm]),
            ih _ hrest]
          simp [apiNode, hd, hm, List.filterMap_cons]
        · rw [artifact_api, if_neg (by simp [hd]), if_neg (by simp [hm]),
            hact, if_neg (by simp), ih _ hrest]
          simp [apiNode, hd, hm, List.filterMap_cons]
  · intro f rendered pre a post ts es rest hpre ha
    induction pre generalizing rest with
    | nil =>
      rw [List.nil_append, artifact_api, if_neg (by simp [ha]),
        if_neg (by simp [ha]), if_pos (by simp [ha])]
      simp [appendApiExample]
    | cons r rs ih =>
      have hact : (r.source == "action") = false :=
        beq_eq_false_iff_ne.mpr (hpre r (List.mem_cons_self r rs))
      have hrest : ∀ x ∈ rs, x.source ≠ "action" :=
        fun x hx => hpre x (List.mem_cons_of_mem _ hx)
      by_cases hd : r.source = "init_data"
      · rw [List.cons_append, artifact_api, if_pos (by simp [hd])]
        have h2 := ih (rest ++ [init_data_node f r]) hrest
        simp only [List.cons_append] at h2 ⊢
        rw [h2]
        simp [apiNode, hd, List.filterMap_cons, List.append_assoc]
      · by_cases hm : r.source = "init_metadata"
        · rw [List.cons_append, artifact_api, if_neg (by simp [hd]),
            if_pos (by simp [hm])]
          have h2 := ih (rest ++ [init_metadata_node f r]) hrest
          simp only [List.cons_append] at h2 ⊢
          rw [h2]
          simp [apiNode, hd, hm, List.filterMap_cons, List.append_assoc]
        · rw [List.cons_append, artifact_api, if_neg (by simp [hd]),
            if_neg (by simp [hm]), hact, if_neg (by simp), ih rest hrest]
          simp [apiNode, hd, hm, List.filterMap_cons]

/-- C4 witness: one data record then an action record, on a block whose
first node is the command-line example node. -/
theorem artifact_api_appends_witness :
    ((∀ r ∈ [(⟨"d", "init_data", Result.artifact "T"⟩ : Record)],
        r.source ≠ "action") ∧
      (⟨"z", "action", Result.artifact "T"⟩ : Record).source = "action") ∧
    artifact_api (fun _ => Result.artifact "T") "RR"
        ([⟨"d", "init_data", Result.artifact "T"⟩] ++
          (⟨"z", "action", Result.artifact "T"⟩ : Record) :: [])
        (Node.exampleNode ["Command Line"] ["R"] :: []) =
      some (Node.exampleNode (["Command Line"] ++ ["Artifact API"])
              (["R"] ++ ["RR"]) ::
            ([] ++ [(⟨"d", "init_data", Result.artifact "T"⟩ : Record)].filterMap
                (apiNode (fun _ => Result.artifact "T"))), 1) :=
  ⟨⟨by decide, rfl⟩,
    artifact_api_appends_and_renders_once.2 _ "RR" _ _ _ _ _ _
      (by decide) rfl⟩

theorem cohStore_dictInsert {store : List (String × Record)}
    {kv : String × Record} (h : cohStore store) (hkv : kv.2.ref = kv.1) :
    cohStore (dictInsert store kv) := by
  unfold dictInsert
  split
  · intro p hp
    obtain ⟨q, hq, rfl⟩ := List.mem_map.mp hp
    by_cases hqk : (q.1 == kv.1) = true
    · simp only [hqk, if_true]
      simpa [hkv] using (eq_of_beq hqk).symm
    · simp only [hqk, Bool.false_eq_true, if_false]
      exact h q hq
  · intro p hp
    rcases List.mem_append.mp hp with h1 | h2
    · exact h p h1
    · rw [List.mem_singleton.mp h2]
      exact hkv

theorem cohStore_foldl_dictInsert {l : List (String × Record)} :
    ∀ store, cohStore store → (∀ p ∈ l, p.2.ref = p.1) →
      cohStore (l.foldl dictInsert store) := by
  induction l with
  | nil => exact fun store h _ => h
  | cons kv l ih =>
    intro store h hl
    exact ih _ (cohStore_dictInsert h (hl kv (List.mem_cons_self kv l)))
      (fun p hp => hl p (List.mem_cons_of_mem _ hp))

theorem cohStore_execBlock {store : List (String × Record)} {b : Block}
    (h : cohStore store) (hb : cohBlock b) :
    cohStore (execBlock store b) :=
  cohStore_foldl_dictInsert store h hb

theorem dictGet_ref {store : List (String × Record)} {k : String}
    (h : cohStore store) (hk : k ∈ store.map Prod.fst) :
    (dictGet store k).ref = k := by
  induction store with
  | nil => simp at hk
  | cons q l ih =>
    by_cases hq : (q.1 == k) = true
    · have : dictGet (q :: l) k = q.2 := by
        simp [dictGet, List.find?, hq]
      rw [this, h q (List.mem_cons_self q l)]
      exact eq_of_beq hq
    · have hrec : dictGet (q :: l) k = dictGet l k := by
        simp [dictGet, List.find?, hq]
      rw [hrec]
      have hk' : k ∈ l.map Prod.fst := by
        rcases List.mem_map.mp hk with ⟨p, hp, hpk⟩
        rcases List.mem_cons.mp hp with h1 | h2
        · exact absurd (by rw [h1] at hpk; simp [hpk]) hq
        · exact List.mem_map.mpr ⟨p, h2, hpk⟩
      exact ih (fun p hp => h p (List.mem_cons_of_mem _ hp)) hk'

theorem new_records_not_processed {store : List (String × Record)}
    {processed : List String} (h : cohStore store) :
    ∀ r ∈ (get_new_records store processed).toList, r.ref ∉ processed := by
  intro r hr
  unfold get_new_records at hr
  set keys := (store.map Prod.fst).filter
      (fun k => !(processed.contains k)) with hkeys
  have key_prop : ∀ k ∈ keys, k ∈ store.map Prod.fst ∧ k ∉ processed := by
    intro k hk
    have hmem := List.mem_filter.mp (hkeys ▸ hk)
    exact ⟨hmem.1, by simpa using hmem.2⟩
  by_cases hemp : keys.isEmpty
  · rw [if_pos hemp] at hr
    simp [PyRecords.toList] at hr
  · rw [if_neg hemp] at hr
    cases hks : keys with
    | nil => rw [hks] at hemp; simp at hemp
    | cons k ks =>
      cases ks with
      | nil =>
        rw [hks] at hr
        simp only [itemgetter, PyRecords.toList, List.mem_singleton] at hr
        subst hr
        have hk := key_prop k (hks ▸ List.mem_cons_self k [])
        rw [dictGet_ref h hk.1]
        exact hk.2
      | cons k2 ks2 =>
        rw [hks] at hr
        simp only [itemgetter, PyRecords.toList, List.mem_map] at hr
        obtain ⟨k', hk', rfl⟩ := hr
        have hk := key_prop k' (hks ▸ hk')
        rw [dictGet_ref h hk.1]
        exact hk.2

theorem recStep_processed (st : RecState) (b : Block) :
    (recStep st b).processed =
      st.processed ++ (dispatchedRecords st b).map Record.ref := rfl

theorem processed_mono (bs : List Block) (st : RecState) :
    ∀ x ∈ st.processed, x ∈ (bs.foldl recStep st).processed := by
  induction bs generalizing st with
  | nil => exact fun x hx => hx
  | cons b bs ih =>
    intro x hx
    exact ih (recStep st b) x
      (by rw [recStep_processed]; exact List.mem_append_left _ hx)

theorem cohStore_foldl (bs : List Block) (st : RecState)
    (h : cohStore st.store) (hb : ∀ b ∈ bs, cohBlock b) :
    cohStore (bs.foldl recStep st).store := by
  induction bs generalizing st with
  | nil => exact h
  | cons b bs ih =>
    exact ih (recStep st b)
      (cohStore_execBlock h (hb b (List.mem_cons_self b bs)))
      (fun x hx => hb x (List.mem_cons_of_mem _ hx))

/-- C2: each pass starts from the empty processed set; after dispatch the
processed set is the old one extended with the dispatched records' refs
(monotone growth); and a record ref dispatched for an earlier block is
never dispatched again for a later block of the same pass. -/
theorem pass_dispatch_no_duplicates :
    (passState [] = ⟨[], []⟩) ∧
    (∀ st b, (recStep st b).processed =
        st.processed ++ (dispatchedRecords st b).map Record.ref) ∧
    (∀ pre mid b1 b2,
        (∀ b ∈ pre ++ b1 :: mid ++ [b2], cohBlock b) →
        ∀ ref, ref ∈ (dispatchedRecords (passState pre) b1).map Record.ref →
          ref ∉ (dispatchedRecords (passState (pre ++ b1 :: mid)) b2).map
                  Record.ref) := by
  refine ⟨rfl, recStep_processed, ?_⟩
  intro pre mid b1 b2 hcoh ref href
  have hpre : ∀ b ∈ pre, cohBlock b := fun b hb => hcoh b (by simp [hb])
  have hb1 : cohBlock b1 := hcoh b1 (by simp)
  have hmid : ∀ b ∈ mid, cohBlock b := fun b hb => hcoh b (by simp [hb])
  have hb2 : cohBlock b2 := hcoh b2 (by simp)
  have hsplit : passState (pre ++ b1 :: mid) =
      mid.foldl recStep (recStep (passState pre) b1) := by
    unfold passState
    rw [List.foldl_append, List.foldl_cons]
  have hin1 : ref ∈ (recStep (passState pre) b1).processed := by
    rw [recStep_processed]
    exact List.mem_append_right _ href
  have hin : ref ∈ (passState (pre ++ b1 :: mid)).processed := by
    rw [hsplit]
    exact processed_mono mid _ ref hin1
  intro habs
  obtain ⟨r, hr, hrref⟩ := List.mem_map.mp habs
  have hcohF : cohStore (passState (pre ++ b1 :: mid)).store := by
    apply cohStore_foldl
    · intro p hp; simp at hp
    · intro b hb
      rcases List.mem_append.mp hb with h1 | h2
      · exact hpre b h1
      · rcases List.mem_cons.mp h2 with h3 | h4
        · rw [h3]; exact hb1
        · exact hmid b h4
  have hcohS : cohStore (execBlock (passState (pre ++ b1 :: mid)).store b2) :=
    cohStore_execBlock hcohF hb2
  have := new_records_not_processed hcohS r hr
  rw [hrref] at this
  exact this hin

/-- C2 witness: two sequential blocks registering the same record ref
`"x"`; the second dispatch receives no record for `"x"`. -/
theorem pass_dispatch_no_duplicates_witness :
    (∀ b ∈ ([] : List Block) ++
        (⟨[("x", ⟨"x", "init_data", Result.artifact "T"⟩)],
          [Node.usageNode "n" false "a/b.rst"]⟩ : Block) ::
          [] ++ [(⟨[("x", ⟨"x", "init_data", Result.artifact "T"⟩)],
            [Node.usageNode "m" false "a/b.rst"]⟩ : Block)], cohBlock b) ∧
    ("x" ∈ (dispatchedRecords (passState [])
        ⟨[("x", ⟨"x", "init_data", Result.artifact "T"⟩)],
          [Node.usageNode "n" false "a/b.rst"]⟩).map Record.ref) ∧
    ("x" ∉ (dispatchedRecords
        (passState ([] ++
          (⟨[("x", ⟨"x", "init_data", Result.artifact "T"⟩)],
            [Node.usageNode "n" false "a/b.rst"]⟩ : Block) :: []))
        ⟨[("x", ⟨"x", "init_data", Result.artifact "T"⟩)],
          [Node.usageNode "m" false "a/b.rst"]⟩).map Record.ref) := by
  refine ⟨by decide, by decide, ?_⟩
  exact pass_dispatch_no_duplicates.2.2 [] [] _ _ (by decide) "x" (by decide)

theorem runPassAux_no_update (env : Env) (s : Strategy) :
    ∀ (bs : List Block) (st : RecState) (i : Nat),
      Event.updateNodes ∉ (runPassAux env s st i bs).1 := by
  intro bs
  induction bs with
  | nil =>
    intro st i
    simp [runPassAux]
  | cons b bs ih =>
    intro st i
    simp only [runPassAux]
    cases h : records_to_nodes env s
        ((get_new_records (execBlock st.store b) st.processed).toList)
        b.nodes with
    | none => simp
    | some out =>
      intro hmem
      rcases List.mem_cons.mp hmem with h1 | h2
      · simp at h1
      · exact ih _ _ h2

theorem runStrategies_no_update (env : Env) :
    ∀ (ss : List Strategy) (blocks : List Block),
      Event.updateNodes ∉ (runStrategies env ss blocks).1 := by
  intro ss
  induction ss with
  | nil =>
    intro blocks
    simp [runStrategies]
  | cons s ss ih =>
    intro blocks
    simp only [runStrategies]
    cases h : (runPassAux env s ⟨[], []⟩ 0 blocks).2 with
    | none => exact runPassAux_no_update env s blocks ⟨[], []⟩ 0
    | some out =>
      intro hmem
      rcases List.mem_append.mp hmem with h1 | h2
      · exact runPassAux_no_update env s blocks ⟨[], []⟩ 0 h1
      · exact ih _ h2

theorem runPassAux_trace (env : Env) (s : Strategy) :
    ∀ (bs : List Block) (st : RecState) (i : Nat),
      (runPassAux env s st i bs).2 ≠ none →
      (runPassAux env s st i bs).1 =
        (List.range' i bs.length).map (Event.exec s) := by
  intro bs
  induction bs with
  | nil =>
    intro st i _
    rfl
  | cons b bs ih =>
    intro st i hne
    simp only [runPassAux] at hne ⊢
    cases h : records_to_nodes env s
        ((get_new_records (execBlock st.store b) st.processed).toList)
        b.nodes with
    | none =>
      rw [h] at hne
      simp at hne
    | some out =>
      rw [h] at hne
      have hrec : (runPassAux env s
          ⟨execBlock st.store b,
            update_processed_records
              ((get_new_records (execBlock st.store b) st.processed).toList)
              st.processed⟩ (i + 1) bs).2 ≠ none := by
        intro hn
        rw [hn] at hne
        simp at hne
      rw [ih _ _ hrec]
      rfl

theorem runPassAux_length (env : Env) (s : Strategy) :
    ∀ (bs : List Block) (st : RecState) (i : Nat)
      (out : List Block × List String),
      (runPassAux env s st i bs).2 = some out → out.1.length = bs.length := by
  intro bs
  induction bs with
  | nil =>
    intro st i out h
    simp only [runPassAux, Option.some.injEq] at h
    rw [← h]
  | cons b bs ih =>
    intro st i out h
    simp only [runPassAux] at h
    cases h2 : records_to_nodes env s
        ((get_new_records (execBlock st.store b) st.processed).toList)
        b.nodes with
    | none =>
      rw [h2] at h
      simp at h
    | some o =>
      rw [h2] at h
      simp only [Option.map_eq_some'] at h
      obtain ⟨q, hq, hout⟩ := h
      rw [← hout]
      simp [ih _ _ _ hq]

theorem runStrategies_trace (env : Env) :
    ∀ (ss : List Strategy) (blocks : List Block),
      (runStrategies env ss blocks).2 ≠ none →
      (runStrategies env ss blocks).1 =
        (ss.map (fun s =>
          (List.range' 0 blocks.length).map (Event.exec s))).flatten := by
  intro ss
  induction ss with
  | nil =>
    intro blocks _
    rfl
  | cons s ss ih =>
    intro blocks hne
    simp only [runStrategies] at hne ⊢
    cases h : (runPassAux env s ⟨[], []⟩ 0 blocks).2 with
    | none =>
      rw [h] at hne
      simp at hne
    | some out =>
      rw [h] at hne
      simp only [] at hne ⊢
      have hrest : (runStrategies env ss out.1).2 ≠ none := by
        intro hn
        rw [hn] at hne
        simp at hne
      have hlen : out.1.length = blocks.length :=
        runPassAux_length env s blocks _ 0 out h
      rw [runPassAux_trace env s blocks _ 0 (by rw [h]; simp), ih _ hrest,
        hlen]
      simp

/-- C7: whenever a full run completes, the event trace is exactly: every
block parsed and executed once per strategy, blocks in declaration order
inside each strategy, strategies in the fixed order diagnostic,
command-line, artifact-API, execution, followed by the single
`update_nodes` event. -/
theorem blocks_execute_once_per_strategy :
    (strategyOrder =
      [Strategy.diagnosticU, Strategy.commandLine, Strategy.artifactAPI,
       Strategy.executionU]) ∧
    (∀ env blocks doctree tr res,
        process_usage_blocks env blocks doctree = (tr, some res) →
        tr = (strategyOrder.map (fun s =>
                (List.range blocks.length).map
                  (fun i => Event.exec s i))).flatten
             ++ [Event.updateNodes]) := by
  refine ⟨rfl, ?_⟩
  intro env blocks doctree tr res h
  simp only [process_usage_blocks] at h
  cases hrun : (runStrategies env strategyOrder blocks).2 with
  | none =>
    rw [hrun] at h
    simp at h
  | some out =>
    rw [hrun] at h
    simp only [Prod.mk.injEq] at h
    rw [← h.1, runStrategies_trace env strategyOrder blocks
      (by rw [hrun]; simp)]
    simp [List.range_eq_range']

/-- C7 witness: one ordinary block; the run completes and the trace is
the four per-strategy executions of block 0 followed by the node
update. -/
theorem blocks_execute_once_per_strategy_witness :
    process_usage_blocks envW [blkW] [] =
      ([Event.exec Strategy.diagnosticU 0, Event.exec Strategy.commandLine 0,
        Event.exec Strategy.artifactAPI 0, Event.exec Strategy.executionU 0,
        Event.updateNodes],
       some ([blkW], [], [])) ∧
    [Event.exec Strategy.diagnosticU 0, Event.exec Strategy.commandLine 0,
     Event.exec Strategy.artifactAPI 0, Event.exec Strategy.executionU 0,
     Event.updateNodes] =
      (strategyOrder.map (fun s =>
        (List.range ([blkW] : List Block).length).map
          (fun i => Event.exec s i))).flatten ++ [Event.updateNodes] :=
  ⟨rfl, blocks_execute_once_per_strategy.2 envW [blkW] [] _ _ rfl⟩

/-- C6: the node updater runs exactly once per completed run; it replaces
each placeholder usage node, paired with its block in traversal order,
with the block's accumulated node list; and a factory node paired with a
block gets the tabular preview attached exactly when the execution record
looked up by its ref holds a metadata result (an artifact result leaves
the preview as it was). -/
theorem update_nodes_replace_and_preview :
    (∀ env blocks doctree tr res,
        process_usage_blocks env blocks doctree = (tr, some res) →
        tr.count Event.updateNodes = 1) ∧
    (∀ (f : String → Result) blocks doctree,
        update_nodes f blocks doctree =
          setPreviews f blocks.length (replaceUsage blocks doctree)) ∧
    (∀ (b : Block) bs pre name fac src rest,
        (∀ n ∈ pre, n.isUsage = false) →
        replaceUsage (b :: bs) (pre ++ Node.usageNode name fac src :: rest) =
          pre ++ (b.nodes ++ replaceUsage bs rest)) ∧
    (∀ (f : String → Result) k ru au sa ref pv ns df,
        f ref = Result.metadata df →
        setPreviews f (k + 1) (Node.factoryNode ru au sa ref pv :: ns) =
          Node.factoryNode ru au sa ref (some df) :: setPreviews f k ns) ∧
    (∀ (f : String → Result) k ru au sa ref pv ns ty,
        f ref = Result.artifact ty →
        setPreviews f (k + 1) (Node.factoryNode ru au sa ref pv :: ns) =
          Node.factoryNode ru au sa ref pv :: setPreviews f k ns) := by
  refine ⟨?_, fun _ _ _ => rfl, ?_, ?_, ?_⟩
  · intro env blocks doctree tr res h
    simp only [process_usage_blocks] at h
    cases hrun : (runStrategies env strategyOrder blocks).2 with
    | none =>
      rw [hrun] at h
      simp at h
    | some out =>
      rw [hrun] at h
      simp only [Prod.mk.injEq] at h
      rw [← h.1, List.count_append]
      have hz : (runStrategies env strategyOrder blocks).1.count
          Event.updateNodes = 0 :=
        List.count_eq_zero.mpr (runStrategies_no_update env strategyOrder
          blocks)
      rw [hz]
      rfl
  · intro b bs pre name fac src rest hpre
    induction pre with
    | nil => simp [replaceUsage, Node.isUsage]
    | cons n pre ih =>
      have hn : n.isUsage = false := hpre n (List.mem_cons_self n pre)
      rw [List.cons_append, replaceUsage, hn]
      simp only [Bool.false_eq_true, if_false, List.cons_append]
      rw [ih (fun x hx => hpre x (List.mem_cons_of_mem _ hx))]
  · intro f k ru au sa ref pv ns df h
    simp [setPreviews, h]
  · intro f k ru au sa ref pv ns ty h
    simp [setPreviews, h]

/-- C6 witness: a trivial completed run updates nodes once; a placeholder
after a non-usage node is replaced by its block's nodes; a factory node
whose execution result is metadata gains the preview. -/
theorem update_nodes_replace_and_preview_witness :
    (process_usage_blocks envW [] [] =
        ([Event.updateNodes], some ([], [], [])) ∧
      [Event.updateNodes].count Event.updateNodes = 1) ∧
    ((∀ n ∈ ([Node.exampleNode [] []] : List Node), n.isUsage = false) ∧
      replaceUsage [(⟨[], [Node.dataNode "T" "l" "d"]⟩ : Block)]
          ([Node.exampleNode [] []] ++ Node.usageNode "u" false "s" :: []) =
        [Node.exampleNode [] []] ++
          ([Node.dataNode "T" "l" "d"] ++ replaceUsage [] [])) ∧
    (envW.execResult "r" = Result.metadata "DF" ∧
      setPreviews envW.execResult (0 + 1)
          [Node.factoryNode "ru" "au" "sa" "r" none] =
        Node.factoryNode "ru" "au" "sa" "r" (some "DF") ::
          setPreviews envW.execResult 0 []) :=
  ⟨⟨rfl, update_nodes_replace_and_preview.1 envW [] [] [Event.updateNodes]
      ([], [], []) rfl⟩,
   ⟨by decide, update_nodes_replace_and_preview.2.2.1 _ [] _ "u" false "s" []
      (by decide)⟩,
   ⟨rfl, update_nodes_replace_and_preview.2.2.2.1 envW.execResult 0 "ru" "au"
      "sa" "r" none [] "DF" rfl⟩⟩

end Q2Doc
